import Mathlib

/-!
Verification of kroki2md (kroki2md/kroki2md.py): a tool that converts kroki
diagram files into Kroki URLs and substitutes placeholder lines of a
markdown document by image links.

The Python source is shallowly embedded below.  File contents are passed as
explicit values (file reading is the only I/O the modelled functions do,
apart from console printing, which is dropped).  The zlib compression
called through `zlib.compress(data, 9)` is an external library; it is
modelled as an explicit function parameter `compress`, and the round-trip
property of the zlib pair is taken as a hypothesis where a claim needs it.
The base64 url-safe encoding called through `base64.urlsafe_b64encode` is
modelled concretely (RFC 4648 url-safe alphabet, `=` padding).

Python `dict` is modelled as an insertion-ordered association list, with
insertion updating an existing key in place (the semantics of CPython
dicts that the program relies on), and `str` as Lean `String`.
-/

namespace Kroki2md

/-! ## Python string primitives -/

/-- `charsPre pat s` is true when `pat` is an initial segment of `s`. -/
def charsPre : List Char → List Char → Bool
  | [], _ => true
  | _ :: _, [] => false
  | a :: as, b :: bs => a == b && charsPre as bs

/-- `charsSub pat s` is true when `pat` occurs contiguously in `s`
(the semantics of the Python `in` operator on strings). -/
def charsSub (pat : List Char) : List Char → Bool
  | [] => charsPre pat []
  | c :: rest => charsPre pat (c :: rest) || charsSub pat rest

/-- Python `pat in line` for strings. -/
def strHasSub (line pat : String) : Bool :=
  charsSub pat.data line.data

/-- Python `s.split(sep)` for a one-character separator: splits on every
occurrence, keeping empty pieces; the result is never empty. -/
def splitChar (sep : Char) : List Char → List (List Char)
  | [] => [[]]
  | c :: rest =>
    if c == sep then [] :: splitChar sep rest
    else
      match splitChar sep rest with
      | g :: gs => (c :: g) :: gs
      | [] => [[c]]

/-! ## Constants of the program (kroki2md.py lines 14-22) -/

/-- `korki_url_format = "https://kroki.io/{type}/{format}/{data}"`,
applied via `str.format`, i.e. plain interpolation. -/
def korki_url_format (type format data : String) : String :=
  "https://kroki.io/" ++ type ++ "/" ++ format ++ "/" ++ data

/-- `markdown_format = "![{file_name}]({url})\n"`, applied via `str.format`. -/
def markdown_format (file_name url : String) : String :=
  "![" ++ file_name ++ "](" ++ url ++ ")\n"

/-- `diagram_types = {".mmd": "mermaid"}`. -/
def diagram_types : List (String × String) :=
  [(".mmd", "mermaid")]

/-! ## Python dict operations -/

/-- Lookup in an insertion-ordered association list (Python `d[k]` /
`k in d`, as a partial lookup). -/
def listLookup (k : String) : List (String × String) → Option String
  | [] => none
  | (k', v) :: rest => if k' == k then some v else listLookup k rest

/-- Python `d[k] = v`: update in place when the key exists (keeping its
position), append otherwise. -/
def dictInsert (d : List (String × String)) (k v : String) : List (String × String) :=
  match d with
  | [] => [(k, v)]
  | (k', v') :: rest =>
    if k' == k then (k', v) :: rest else (k', v') :: dictInsert rest k v

/-- Membership test on a list of keys. -/
def keyMem (k : String) : List String → Bool
  | [] => false
  | x :: rest => x == k || keyMem k rest

/-! ## check_line (kroki2md.py lines 191-219)

```python
for key, value in replacements.items():
    if "![" + key + "]" in line:
        req = markdown_format.format(file_name=key, url=value)
        break
    else:
        req = line
return req
```

When `replacements` is empty the loop body never runs, the local `req` is
never assigned, and `return req` raises `UnboundLocalError`; that outcome
is modelled as `none`.  Diagnostic printing (the `verbosity` and `index`
arguments) is dropped. -/

def check_line_loop (line : String) : List (String × String) → Option String → Option String
  | [], req => req
  | (key, value) :: rest, _ =>
    if strHasSub line ("![" ++ key ++ "]") then
      some (markdown_format key value)
    else
      check_line_loop line rest (some line)

def check_line (line : String) (replacements : List (String × String)) : Option String :=
  check_line_loop line replacements none

/-! ## update_markdown_file (kroki2md.py lines 147-188)

The per-line loop builds `final` by appending `check_line` of each line;
an exception in `check_line` aborts the whole call before any write, hence
the `Option`.  The write-back replaces the whole file content by `final`
when `dry_run` is false and does nothing when it is true. -/

def update_markdown_lines (replacements : List (String × String)) : List String → Option (List String)
  | [] => some []
  | line :: rest =>
    match check_line line replacements, update_markdown_lines replacements rest with
    | some req, some final => some (req :: final)
    | _, _ => none

/-- The on-disk content of the target file after `update_markdown_file`
runs on a file holding `data`: unchanged on a crash of the per-line loop,
unchanged on a dry run, and replaced by the rewritten lines otherwise. -/
def update_markdown_file (data : List String) (replacements : List (String × String))
    (dry_run : Bool) : List String :=
  match update_markdown_lines replacements data with
  | none => data
  | some final => if dry_run then data else final

/-! ## base64.urlsafe_b64encode, modelled concretely

RFC 4648 base64 with the url-safe alphabet (`-` and `_` in place of `+`
and `/`) and standard `=` padding, over bytes represented as `Nat` values
below 256. -/

/-- The url-safe base64 alphabet, in value order. -/
def b64alphabet : List Char :=
  "ABCDEFGHIJKLMNOPQRSTUVWXYZabcdefghijklmnopqrstuvwxyz0123456789-_".data

/-- The character encoding the six-bit value `n`. -/
def b64char (n : Nat) : Char :=
  b64alphabet.getD n 'A'

/-- Inverse of `b64char` on the alphabet (0 elsewhere). -/
def b64inv (c : Char) : Nat :=
  if 65 ≤ c.toNat ∧ c.toNat ≤ 90 then c.toNat - 65
  else if 97 ≤ c.toNat ∧ c.toNat ≤ 122 then c.toNat - 71
  else if 48 ≤ c.toNat ∧ c.toNat ≤ 57 then c.toNat + 4
  else if c.toNat = 45 then 62
  else if c.toNat = 95 then 63
  else 0

/-- base64 encoding of a byte list: groups of three bytes become four
alphabet characters; a trailing group of one or two bytes is padded
with `=`. -/
def b64encodeChars : List Nat → List Char
  | [] => []
  | [b0] =>
    [b64char (b0 / 4), b64char (b0 % 4 * 16), '=', '=']
  | [b0, b1] =>
    [b64char (b0 / 4), b64char (b0 % 4 * 16 + b1 / 16), b64char (b1 % 16 * 4), '=']
  | b0 :: b1 :: b2 :: rest =>
    b64char (b0 / 4) :: b64char (b0 % 4 * 16 + b1 / 16) ::
      b64char (b1 % 16 * 4 + b2 / 64) :: b64char (b2 % 64) :: b64encodeChars rest

/-- base64 decoding, the inverse direction: four characters at a time,
stopping at padding. -/
def b64decodeChars : List Char → List Nat
  | c0 :: c1 :: c2 :: c3 :: rest =>
    let s0 := b64inv c0
    let s1 := b64inv c1
    if c2 == '=' then [s0 * 4 + s1 / 16]
    else
      let s2 := b64inv c2
      if c3 == '=' then [s0 * 4 + s1 / 16, s1 % 16 * 16 + s2 / 4]
      else
        (s0 * 4 + s1 / 16) :: (s1 % 16 * 16 + s2 / 4) ::
          (s2 % 4 * 64 + b64inv c3) :: b64decodeChars rest
  | _ => []

/-- Standard UTF-8 encoding of one code point. -/
def utf8EncodeCharNat (c : Char) : List Nat :=
  let n := c.toNat
  if n < 128 then [n]
  else if n < 2048 then [192 + n / 64, 128 + n % 64]
  else if n < 65536 then [224 + n / 4096, 128 + n / 64 % 64, 128 + n % 64]
  else [240 + n / 262144, 128 + n / 4096 % 64, 128 + n / 64 % 64, 128 + n % 64]

def utf8BytesList : List Char → List Nat
  | [] => []
  | c :: rest => utf8EncodeCharNat c ++ utf8BytesList rest

/-- UTF-8 bytes of a string (Python `data.encode("utf-8")`), as `Nat`s. -/
def utf8Bytes (s : String) : List Nat :=
  utf8BytesList s.data

/-! ## convert_file (kroki2md.py lines 125-144)

```python
with open(file_name, "r") as f:
    data = f.read()
    encoded = base64.urlsafe_b64encode(zlib.compress(data.encode("utf-8"), 9)).decode("ascii")
    return korki_url_format.format(type=ftype, format=format, data=encoded)
```

The file's text is the explicit argument `data`; `zlib.compress(·, 9)` is
the explicit argument `compress`. -/

/-- The `encoded` payload computed by `convert_file`. -/
def payloadOf (compress : List Nat → List Nat) (data : String) : String :=
  String.mk (b64encodeChars (compress (utf8Bytes data)))

def convert_file (compress : List Nat → List Nat) (data ftype format : String) : String :=
  korki_url_format ftype format (payloadOf compress data)

/-! ## convert (kroki2md.py lines 79-122)

```python
replacements = dict()
warnings = 0
for file_name in file_names:
    fname = file_name.split("/")[-1]
    ftype = "." + fname.split(".")[-1]
    if ftype in diagram_types:
        replacements[fname] = convert_file(file_name, diagram_types[ftype], format, verbosity)
    else:
        warnings += 1
        ...
return replacements
```

The input files are (path, content) pairs so that `convert_file`'s read of
the path yields the paired content. -/

/-- `fname = file_name.split("/")[-1]`. -/
def fnameOf (file_name : String) : String :=
  String.mk ((splitChar '/' file_name.data).getLastD [])

/-- `ftype = "." + fname.split(".")[-1]` (note: computed from the base
name, not the full path). -/
def ftypeOf (fname : String) : String :=
  String.mk ('.' :: (splitChar '.' fname.data).getLastD [])

/-- Whether a path's derived extension is a recognised diagram type. -/
def recognizedName (file_name : String) : Bool :=
  (listLookup (ftypeOf (fnameOf file_name)) diagram_types).isSome

/-- The diagram language associated to a recognised path. -/
def langOf (file_name : String) : String :=
  (listLookup (ftypeOf (fnameOf file_name)) diagram_types).getD ""

def convertLoop (compress : List Nat → List Nat) (format : String) :
    List (String × String) → List (String × String) → Nat → List (String × String) × Nat
  | [], replacements, warnings => (replacements, warnings)
  | (file_name, content) :: rest, replacements, warnings =>
    let fname := fnameOf file_name
    let ftype := ftypeOf fname
    match listLookup ftype diagram_types with
    | some lang =>
      convertLoop compress format rest
        (dictInsert replacements fname (convert_file compress content lang format)) warnings
    | none =>
      convertLoop compress format rest replacements (warnings + 1)

/-- `convert`, returning the replacements dict together with the warning
count (the warning count is only printed by the Python code; it is
returned here so that the skip-with-warning behaviour is observable). -/
def convert (compress : List Nat → List Nat) (format : String)
    (files : List (String × String)) : List (String × String) × Nat :=
  convertLoop compress format files [] 0

/-! ## Spec-side helper notions used to state the claims -/

/-- The last input file that is recognised and has base name `k`. -/
def lastMatch (k : String) : List (String × String) → Option (String × String)
  | [] => none
  | pc :: rest =>
    match lastMatch k rest with
    | some q => some q
    | none => if recognizedName pc.1 && (fnameOf pc.1 == k) then some pc else none

/-- Base names of the recognised input files, in input order. -/
def recNames : List (String × String) → List String
  | [] => []
  | pc :: rest =>
    if recognizedName pc.1 then fnameOf pc.1 :: recNames rest else recNames rest

def dedupFirstAux : List String → List String → List String
  | [], _ => []
  | k :: rest, seen =>
    if keyMem k seen then dedupFirstAux rest seen
    else k :: dedupFirstAux rest (k :: seen)

/-- First-occurrence deduplication of a list of names. -/
def dedupFirst (l : List String) : List String :=
  dedupFirstAux l []

/-! ## Lemmas about the base64 layer -/

theorem b64inv_b64char : ∀ n, n < 64 → b64inv (b64char n) = n := by decide

theorem b64char_ne_pad : ∀ n, n < 64 → (b64char n == '=') = false := by decide

theorem b64alphabet_length : b64alphabet.length = 64 := by decide

theorem b64char_mem (n : Nat) : b64char n ∈ b64alphabet := by
  rcases Nat.lt_or_ge n 64 with h | h
  · exact (by decide : ∀ m, m < 64 → b64char m ∈ b64alphabet) n h
  · unfold b64char
    rw [List.getD_eq_default]
    · decide
    · rw [b64alphabet_length]; exact h

theorem b64_roundtrip : ∀ (bytes : List Nat), (∀ b ∈ bytes, b < 256) →
    b64decodeChars (b64encodeChars bytes) = bytes
  | [], _ => rfl
  | [b0], h => by
    have hb0 : b0 < 256 := h b0 (by simp)
    simp only [b64encodeChars, b64decodeChars, beq_self_eq_true, if_true]
    rw [b64inv_b64char (b0 / 4) (by omega), b64inv_b64char (b0 % 4 * 16) (by omega)]
    simp only [List.cons.injEq, and_true]
    omega
  | [b0, b1], h => by
    have hb0 : b0 < 256 := h b0 (by simp)
    have hb1 : b1 < 256 := h b1 (by simp)
    simp only [b64encodeChars, b64decodeChars]
    rw [b64char_ne_pad (b1 % 16 * 4) (by omega)]
    simp only [Bool.false_eq_true, if_false, beq_self_eq_true, if_true]
    rw [b64inv_b64char (b0 / 4) (by omega), b64inv_b64char (b0 % 4 * 16 + b1 / 16) (by omega),
      b64inv_b64char (b1 % 16 * 4) (by omega)]
    simp only [List.cons.injEq, and_true]
    omega
  | b0 :: b1 :: b2 :: rest, h => by
    have hb0 : b0 < 256 := h b0 (by simp)
    have hb1 : b1 < 256 := h b1 (by simp)
    have hb2 : b2 < 256 := h b2 (by simp)
    have hrest : ∀ b ∈ rest, b < 256 := fun b hb => h b (by simp [hb])
    show b64decodeChars (b64char (b0 / 4) :: b64char (b0 % 4 * 16 + b1 / 16) ::
      b64char (b1 % 16 * 4 + b2 / 64) :: b64char (b2 % 64) :: b64encodeChars rest) = _
    simp only [b64decodeChars]
    rw [b64char_ne_pad (b1 % 16 * 4 + b2 / 64) (by omega)]
    rw [b64char_ne_pad (b2 % 64) (by omega)]
    simp only [Bool.false_eq_true, if_false]
    rw [b64inv_b64char (b0 / 4) (by omega), b64inv_b64char (b0 % 4 * 16 + b1 / 16) (by omega),
      b64inv_b64char (b1 % 16 * 4 + b2 / 64) (by omega), b64inv_b64char (b2 % 64) (by omega)]
    rw [b64_roundtrip rest hrest]
    simp only [List.cons.injEq]
    refine ⟨by omega, by omega, by omega, trivial⟩

theorem b64encode_alphabet : ∀ (bytes : List Nat) (c : Char),
    c ∈ b64encodeChars bytes → c ∈ b64alphabet ∨ c = '='
  | [], c, h => absurd h (by simp [b64encodeChars])
  | [b0], c, h => by
    simp only [b64encodeChars, List.mem_cons, List.not_mem_nil, or_false] at h
    rcases h with rfl | rfl | rfl | rfl
    · exact Or.inl (b64char_mem _)
    · exact Or.inl (b64char_mem _)
    · exact Or.inr rfl
    · exact Or.inr rfl
  | [b0, b1], c, h => by
    simp only [b64encodeChars, List.mem_cons, List.not_mem_nil, or_false] at h
    rcases h with rfl | rfl | rfl | rfl
    · exact Or.inl (b64char_mem _)
    · exact Or.inl (b64char_mem _)
    · exact Or.inl (b64char_mem _)
    · exact Or.inr rfl
  | b0 :: b1 :: b2 :: rest, c, h => by
    have : c = b64char (b0 / 4) ∨ c = b64char (b0 % 4 * 16 + b1 / 16) ∨
        c = b64char (b1 % 16 * 4 + b2 / 64) ∨ c = b64char (b2 % 64) ∨
        c ∈ b64encodeChars rest := by
      simpa only [b64encodeChars, List.mem_cons] using h
    rcases this with rfl | rfl | rfl | rfl | hm
    · exact Or.inl (b64char_mem _)
    · exact Or.inl (b64char_mem _)
    · exact Or.inl (b64char_mem _)
    · exact Or.inl (b64char_mem _)
    · exact b64encode_alphabet rest c hm

/-! ## Lemmas about check_line -/

theorem check_line_loop_first (line k v : String) (post : List (String × String)) :
    ∀ (pre : List (String × String)) (req : Option String),
      (∀ kv ∈ pre, strHasSub line ("![" ++ kv.1 ++ "]") = false) →
      strHasSub line ("![" ++ k ++ "]") = true →
      check_line_loop line (pre ++ (k, v) :: post) req = some (markdown_format k v)
  | [], req, _, hk => by simp [check_line_loop, hk]
  | kv :: pre, req, hpre, hk => by
    have hkv : strHasSub line ("![" ++ kv.1 ++ "]") = false := hpre kv (by simp)
    have hrest : ∀ p ∈ pre, strHasSub line ("![" ++ p.1 ++ "]") = false := by
      intro p hp
      exact hpre p (by simp [hp])
    cases kv with
    | mk k' v' =>
      simp only [List.cons_append, check_line_loop]
      rw [hkv]
      simp only [Bool.false_eq_true, if_false]
      exact check_line_loop_first line k v post pre (some line) hrest hk

theorem check_line_loop_no_match (line : String) :
    ∀ (reps : List (String × String)) (req : Option String),
      reps ≠ [] →
      (∀ kv ∈ reps, strHasSub line ("![" ++ kv.1 ++ "]") = false) →
      check_line_loop line reps req = some line
  | [], _, hne, _ => absurd rfl hne
  | (k, v) :: rest, req, _, hno => by
    have hk : strHasSub line ("![" ++ k ++ "]") = false := hno (k, v) (by simp)
    simp only [check_line_loop]
    rw [hk]
    simp only [Bool.false_eq_true, if_false]
    cases rest with
    | nil => rfl
    | cons p ps =>
      exact check_line_loop_no_match line (p :: ps) (some line) (by simp)
        (fun kv hkv => hno kv (by simp [hkv]))

theorem check_line_some_no_match (line r : String) (reps : List (String × String))
    (h : check_line line reps = some r)
    (hno : ∀ kv ∈ reps, strHasSub line ("![" ++ kv.1 ++ "]") = false) : r = line := by
  cases reps with
  | nil => simp [check_line, check_line_loop] at h
  | cons kv rest =>
    unfold check_line at h
    rw [check_line_loop_no_match line (kv :: rest) none (by simp) hno] at h
    exact (Option.some_inj.mp h).symm

/-! ## Lemmas about the dict model -/

theorem listLookup_dictInsert (d : List (String × String)) (k v k' : String) :
    listLookup k' (dictInsert d k v) = if k == k' then some v else listLookup k' d := by
  induction d with
  | nil => rfl
  | cons a rest ih =>
    obtain ⟨ka, va⟩ := a
    simp only [dictInsert]
    by_cases hak : ka = k
    · subst hak
      simp only [beq_self_eq_true, if_true, listLookup]
      by_cases hk' : ka = k'
      · subst hk'
        simp
      · have h1 : (ka == k') = false := beq_eq_false_iff_ne.mpr hk'
        simp [h1]
    · have h1 : (ka == k) = false := beq_eq_false_iff_ne.mpr hak
      simp only [h1, Bool.false_eq_true, if_false, listLookup, ih]
      by_cases h2 : ka = k'
      · subst h2
        have h3 : (k == ka) = false := beq_eq_false_iff_ne.mpr (fun he => hak he.symm)
        simp [h3]
      · have h3 : (ka == k') = false := beq_eq_false_iff_ne.mpr h2
        simp [h3]

theorem dictInsert_map_fst (d : List (String × String)) (k v : String) :
    (dictInsert d k v).map Prod.fst =
      if keyMem k (d.map Prod.fst) then d.map Prod.fst else d.map Prod.fst ++ [k] := by
  induction d with
  | nil => rfl
  | cons a rest ih =>
    obtain ⟨ka, va⟩ := a
    simp only [dictInsert, List.map_cons, keyMem]
    by_cases hak : ka = k
    · subst hak
      simp
    · have h1 : (ka == k) = false := beq_eq_false_iff_ne.mpr hak
      simp only [h1, Bool.false_eq_true, if_false, List.map_cons, ih, Bool.false_or]
      by_cases hm : keyMem k (rest.map Prod.fst) = true <;> simp [hm]

theorem keyMem_true_iff_mem (k : String) : ∀ (l : List String), keyMem k l = true ↔ k ∈ l
  | [] => by simp [keyMem]
  | x :: rest => by
    simp only [keyMem, Bool.or_eq_true, beq_iff_eq, List.mem_cons,
      keyMem_true_iff_mem k rest]
    constructor
    · rintro (rfl | h)
      · exact Or.inl rfl
      · exact Or.inr h
    · rintro (rfl | h)
      · exact Or.inl rfl
      · exact Or.inr h

theorem keyMem_append (x : String) : ∀ (a b : List String),
    keyMem x (a ++ b) = (keyMem x a || keyMem x b)
  | [], b => by simp [keyMem]
  | c :: a, b => by
    simp [keyMem, keyMem_append x a b, Bool.or_assoc]

/-! ## Lemmas about first-occurrence deduplication -/

theorem dedupFirstAux_congr : ∀ (l : List String) (s1 s2 : List String),
    (∀ x, keyMem x s1 = keyMem x s2) →
    dedupFirstAux l s1 = dedupFirstAux l s2
  | [], _, _, _ => rfl
  | k :: rest, s1, s2, h => by
    simp only [dedupFirstAux, h k]
    by_cases hm : keyMem k s2 = true
    · simp only [hm, if_true]
      exact dedupFirstAux_congr rest s1 s2 h
    · have hm' : keyMem k s2 = false := Bool.eq_false_iff.mpr hm
      simp only [hm', Bool.false_eq_true, if_false]
      have hcons : ∀ x, keyMem x (k :: s1) = keyMem x (k :: s2) := by
        intro x
        simp [keyMem, h x]
      rw [dedupFirstAux_congr rest (k :: s1) (k :: s2) hcons]

theorem dedupFirstAux_not_seen : ∀ (l seen : List String) (x : String),
    x ∈ dedupFirstAux l seen → keyMem x seen = false
  | [], _, x, h => absurd h (by simp [dedupFirstAux])
  | k :: rest, seen, x, h => by
    by_cases hm : keyMem k seen = true
    · rw [dedupFirstAux, if_pos hm] at h
      exact dedupFirstAux_not_seen rest seen x h
    · rw [dedupFirstAux, if_neg hm] at h
      rcases List.mem_cons.mp h with rfl | h'
      · exact Bool.eq_false_iff.mpr hm
      · have := dedupFirstAux_not_seen rest (k :: seen) x h'
        simp only [keyMem, Bool.or_eq_false_iff] at this
        exact this.2

theorem dedupFirstAux_nodup : ∀ (l seen : List String), (dedupFirstAux l seen).Nodup
  | [], _ => List.nodup_nil
  | k :: rest, seen => by
    by_cases hm : keyMem k seen = true
    · rw [dedupFirstAux, if_pos hm]
      exact dedupFirstAux_nodup rest seen
    · rw [dedupFirstAux, if_neg hm]
      refine List.nodup_cons.mpr ⟨?_, dedupFirstAux_nodup rest (k :: seen)⟩
      intro hk
      have := dedupFirstAux_not_seen rest (k :: seen) k hk
      simp [keyMem] at this

/-! ## Lemmas about convert -/

theorem splitChar_of_not_mem (sep : Char) : ∀ (l : List Char), sep ∉ l →
    splitChar sep l = [l]
  | [], _ => rfl
  | c :: rest, h => by
    have hc : (c == sep) = false :=
      beq_eq_false_iff_ne.mpr (fun he => h (by simp [← he]))
    rw [splitChar, if_neg (by simp [hc])]
    rw [splitChar_of_not_mem sep rest (fun hm => h (by simp [hm]))]

theorem convertLoop_warnings (compress : List Nat → List Nat) (format : String) :
    ∀ (files reps : List (String × String)) (w : Nat),
      (convertLoop compress format files reps w).2 =
        w + (files.filter (fun pc => !recognizedName pc.1)).length
  | [], reps, w => by simp [convertLoop]
  | (p, c) :: rest, reps, w => by
    cases hl : listLookup (ftypeOf (fnameOf p)) diagram_types with
    | some lang =>
      have hrec : recognizedName p = true := by simp [recognizedName, hl]
      simp only [convertLoop, hl]
      rw [convertLoop_warnings compress format rest _ w]
      simp [hrec]
    | none =>
      have hrec : recognizedName p = false := by simp [recognizedName, hl]
      simp only [convertLoop, hl]
      rw [convertLoop_warnings compress format rest reps (w + 1)]
      simp only [List.filter_cons, hrec, Bool.not_false, if_true, List.length_cons]
      omega

theorem convertLoop_lookup (compress : List Nat → List Nat) (format : String) :
    ∀ (files reps : List (String × String)) (w : Nat) (k : String),
      listLookup k (convertLoop compress format files reps w).1 =
        match lastMatch k files with
        | some pc => some (convert_file compress pc.2 (langOf pc.1) format)
        | none => listLookup k reps
  | [], reps, w, k => by simp [convertLoop, lastMatch]
  | (p, c) :: rest, reps, w, k => by
    cases hl : listLookup (ftypeOf (fnameOf p)) diagram_types with
    | some lang =>
      have hrec : recognizedName p = true := by simp [recognizedName, hl]
      have hlang : langOf p = lang := by simp [langOf, hl]
      simp only [convertLoop, hl]
      rw [convertLoop_lookup compress format rest _ w k]
      cases hm : lastMatch k rest with
      | some q => simp [lastMatch, hm]
      | none =>
        simp only [lastMatch, hm, hrec, Bool.true_and]
        rw [listLookup_dictInsert]
        by_cases hk : fnameOf p = k
        · have hbeq : (fnameOf p == k) = true := beq_iff_eq.mpr hk
          subst hk
          simp [hbeq, hlang]
        · have hbeq : (fnameOf p == k) = false := beq_eq_false_iff_ne.mpr hk
          simp [hbeq]
    | none =>
      have hrec : recognizedName p = false := by simp [recognizedName, hl]
      simp only [convertLoop, hl]
      rw [convertLoop_lookup compress format rest reps (w + 1) k]
      cases hm : lastMatch k rest with
      | some q => simp [lastMatch, hm]
      | none => simp [lastMatch, hm, hrec]

theorem convertLoop_keys (compress : List Nat → List Nat) (format : String) :
    ∀ (files reps : List (String × String)) (w : Nat),
      (convertLoop compress format files reps w).1.map Prod.fst =
        reps.map Prod.fst ++ dedupFirstAux (recNames files) (reps.map Prod.fst)
  | [], reps, w => by simp [convertLoop, recNames, dedupFirstAux]
  | (p, c) :: rest, reps, w => by
    cases hl : listLookup (ftypeOf (fnameOf p)) diagram_types with
    | some lang =>
      have hrec : recognizedName p = true := by simp [recognizedName, hl]
      simp only [convertLoop, hl]
      rw [convertLoop_keys compress format rest _ w]
      rw [dictInsert_map_fst]
      by_cases hm : keyMem (fnameOf p) (reps.map Prod.fst) = true
      · simp only [hm, if_true, recNames, hrec, dedupFirstAux]
      · have hm' : keyMem (fnameOf p) (reps.map Prod.fst) = false := Bool.eq_false_iff.mpr hm
        simp only [hm', Bool.false_eq_true, if_false, recNames, hrec, if_true, dedupFirstAux]
        rw [dedupFirstAux_congr (recNames rest)
          (reps.map Prod.fst ++ [fnameOf p]) (fnameOf p :: reps.map Prod.fst)
          (by
            intro x
            rw [keyMem_append]
            simp [keyMem, Bool.or_comm])]
        simp [hm']
    | none =>
      have hrec : recognizedName p = false := by simp [recognizedName, hl]
      simp only [convertLoop, hl]
      rw [convertLoop_keys compress format rest reps (w + 1)]
      simp [recNames, hrec]

theorem lastMatch_isSome_eq_any (k : String) : ∀ (files : List (String × String)),
    (lastMatch k files).isSome =
      files.any (fun pc => recognizedName pc.1 && (fnameOf pc.1 == k))
  | [] => rfl
  | pc :: rest => by
    simp only [List.any_cons]
    rw [← lastMatch_isSome_eq_any k rest]
    cases hm : lastMatch k rest with
    | some q => simp [lastMatch, hm]
    | none =>
      simp only [lastMatch, hm, Option.isSome_none, Bool.or_false]
      by_cases hc : (recognizedName pc.1 && (fnameOf pc.1 == k)) = true <;> simp [hc]

end Kroki2md

namespace Kroki2md

/-! ## Claim theorems -/

/-- Claim C1: the spec claims that with no matching placeholder the
substitution pass returns the document unchanged, *including for an empty
mapping*.  The code violates the empty-mapping case: `check_line` never
assigns its local `req` when `replacements` is empty and raises
`UnboundLocalError` (modelled as `none`), so the per-line pass of
`update_markdown_file` crashes on any non-empty document. -/
theorem check_line_empty_mapping_crash :
    check_line "hello\n" [] = none ∧
    update_markdown_lines [] ["hello\n"] = none :=
  ⟨rfl, rfl⟩

/-- Claim C4: mapping entries are tested in iteration order; the first key
whose bracketed placeholder occurs in the line wins, the whole line is
replaced by exactly the string of markdown_format, and no later entry is
consulted. -/
theorem check_line_first_match_wins (line k v : String)
    (pre post : List (String × String))
    (hpre : ∀ kv ∈ pre, strHasSub line ("![" ++ kv.1 ++ "]") = false)
    (hk : strHasSub line ("![" ++ k ++ "]") = true) :
    check_line line (pre ++ (k, v) :: post) = some ("![" ++ k ++ "](" ++ v ++ ")\n") := by
  unfold check_line
  rw [check_line_loop_first line k v post pre none hpre hk]
  rfl

theorem check_line_first_match_wins_witness :
    (∀ kv ∈ [("z.mmd", "Z")], strHasSub "x ![a.mmd] y ![b.mmd]\n" ("![" ++ kv.1 ++ "]") = false) ∧
    check_line "x ![a.mmd] y ![b.mmd]\n" ([("z.mmd", "Z")] ++ ("a.mmd", "L") :: [("b.mmd", "M")]) =
      some ("![" ++ "a.mmd" ++ "](" ++ "L" ++ ")\n") :=
  ⟨by decide,
    check_line_first_match_wins "x ![a.mmd] y ![b.mmd]\n" "a.mmd" "L"
      [("z.mmd", "Z")] [("b.mmd", "M")] (by decide) (by decide)⟩

/-- Claim C2: for a file whose extension maps to a diagram language
(`.mmd` maps to `mermaid`), `convert_file` returns exactly
`https://kroki.io/language/format/payload`, where the payload is the
url-safe base64 encoding (alphabet ending `-`/`_`, `=` padding) of the
compressed UTF-8 bytes of the file's text; the compression function
(`zlib.compress(·, 9)`) is the explicit `compress` parameter. -/
theorem convert_file_url_shape (compress : List Nat → List Nat)
    (data ext lang format : String)
    (h : listLookup ext diagram_types = some lang) :
    convert_file compress data lang format =
      "https://kroki.io/" ++ lang ++ "/" ++ format ++ "/" ++ payloadOf compress data ∧
    (payloadOf compress data).data = b64encodeChars (compress (utf8Bytes data)) ∧
    (ext = ".mmd" → lang = "mermaid") ∧
    ∀ c ∈ (payloadOf compress data).data, c ∈ b64alphabet ∨ c = '=' := by
  refine ⟨rfl, rfl, ?_, ?_⟩
  · intro he
    subst he
    simp only [listLookup, diagram_types, beq_self_eq_true, if_true, Option.some_inj] at h
    exact h.symm
  · intro c hc
    exact b64encode_alphabet _ c hc

theorem convert_file_url_shape_witness :
    listLookup ".mmd" diagram_types = some "mermaid" ∧
    convert_file (fun bs => bs) "graph TD; A-->B;" "mermaid" "svg" =
      "https://kroki.io/" ++ "mermaid" ++ "/" ++ "svg" ++ "/" ++
        payloadOf (fun bs => bs) "graph TD; A-->B;" :=
  ⟨by decide,
    (convert_file_url_shape (fun bs => bs) "graph TD; A-->B;" ".mmd" "mermaid" "svg"
      (by decide)).1⟩

/-- Claim C3: base64-decoding the payload portion of a produced link with
the url-safe alphabet and then inflating reproduces the UTF-8 bytes of the
source text exactly, given that inflation inverts the compression (the
round-trip guarantee of the zlib pair) and that the compressor emits
bytes. -/
theorem payload_decode_roundtrip (compress inflate : List Nat → List Nat)
    (data lang format : String)
    (hbytes : ∀ b ∈ compress (utf8Bytes data), b < 256)
    (hinv : inflate (compress (utf8Bytes data)) = utf8Bytes data) :
    convert_file compress data lang format =
      "https://kroki.io/" ++ lang ++ "/" ++ format ++ "/" ++ payloadOf compress data ∧
    inflate (b64decodeChars (payloadOf compress data).data) = utf8Bytes data := by
  refine ⟨rfl, ?_⟩
  show inflate (b64decodeChars (b64encodeChars (compress (utf8Bytes data)))) = _
  rw [b64_roundtrip (compress (utf8Bytes data)) hbytes, hinv]

theorem payload_decode_roundtrip_witness :
    (∀ b ∈ (fun bs => bs) (utf8Bytes "graph TD; A-->B;"), b < 256) ∧
    ((fun bs => bs) (utf8Bytes "graph TD; A-->B;") = utf8Bytes "graph TD; A-->B;") ∧
    (fun bs => bs)
        (b64decodeChars (payloadOf (fun bs => bs) "graph TD; A-->B;").data) =
      utf8Bytes "graph TD; A-->B;" :=
  ⟨by decide, rfl,
    (payload_decode_roundtrip (fun bs => bs) (fun bs => bs) "graph TD; A-->B;"
      "mermaid" "svg" (by decide) rfl).2⟩

/-- Claim C5: whenever the per-line pass completes, the rewritten sequence
has exactly as many lines as the input, and a line matched by no mapping
entry is unchanged. -/
theorem update_lines_length_preserved (reps : List (String × String)) :
    ∀ (data final : List String),
      update_markdown_lines reps data = some final →
      final.length = data.length ∧
      ∀ (i : Nat) (h1 : i < data.length) (h2 : i < final.length),
        (∀ kv ∈ reps, strHasSub (data.get ⟨i, h1⟩) ("![" ++ kv.1 ++ "]") = false) →
        final.get ⟨i, h2⟩ = data.get ⟨i, h1⟩ := by
  intro data
  induction data with
  | nil =>
    intro final h
    simp only [update_markdown_lines, Option.some_inj] at h
    subst h
    exact ⟨rfl, fun i h1 => absurd h1 (by simp)⟩
  | cons line rest ih =>
    intro final h
    unfold update_markdown_lines at h
    cases hc : check_line line reps with
    | none => rw [hc] at h; exact absurd h (by simp)
    | some req =>
      cases hu : update_markdown_lines reps rest with
      | none => rw [hc, hu] at h; exact absurd h (by simp)
      | some fin =>
        rw [hc, hu] at h
        simp only [Option.some_inj] at h
        subst h
        obtain ⟨hl, hidx⟩ := ih fin hu
        refine ⟨by simp [hl], ?_⟩
        intro i h1 h2 hno
        cases i with
        | zero =>
          exact check_line_some_no_match line req reps hc hno
        | succ n =>
          exact hidx n (Nat.lt_of_succ_lt_succ h1) (Nat.lt_of_succ_lt_succ h2) hno

theorem update_lines_length_preserved_witness :
    update_markdown_lines [("a.mmd", "L")] ["t\n", "![a.mmd]\n"] = some ["t\n", "![a.mmd](L)\n"] ∧
    (["t\n", "![a.mmd](L)\n"] : List String).length = (["t\n", "![a.mmd]\n"] : List String).length :=
  ⟨by decide,
    (update_lines_length_preserved [("a.mmd", "L")] ["t\n", "![a.mmd]\n"]
      ["t\n", "![a.mmd](L)\n"] (by decide)).1⟩

/-- Claim C6: with the dry-run flag set, the target file's on-disk content
is unchanged; without it, the full rewritten line sequence replaces the
file content. -/
theorem update_file_effects (data : List String) (reps : List (String × String)) :
    update_markdown_file data reps true = data ∧
    ∀ final, update_markdown_lines reps data = some final →
      update_markdown_file data reps false = final := by
  constructor
  · unfold update_markdown_file
    cases update_markdown_lines reps data with
    | none => rfl
    | some final => rfl
  · intro final h
    unfold update_markdown_file
    rw [h]
    rfl

/-- Claim C7: a file whose derived extension is not recognised adds no
mapping entry and is counted as a warning (never an error: `convert` is
total), and the mapping has an entry for a base name exactly when some
recognised input file carries it. -/
theorem convert_skips_unrecognized (compress : List Nat → List Nat) (format : String)
    (files : List (String × String)) :
    (convert compress format files).2 =
      (files.filter (fun pc => !recognizedName pc.1)).length ∧
    ∀ k, (listLookup k (convert compress format files).1).isSome =
      files.any (fun pc => recognizedName pc.1 && (fnameOf pc.1 == k)) := by
  constructor
  · simpa [convert] using convertLoop_warnings compress format files [] 0
  · intro k
    simp only [convert]
    rw [convertLoop_lookup compress format files [] 0 k, ← lastMatch_isSome_eq_any]
    cases hm : lastMatch k files <;> simp [hm, listLookup]

/-- Claim C8: the mapping has at most one entry per base name, and the
entry for a base name carried by several recognised input files holds the
encoded link of the last such file in input order. -/
theorem convert_last_write_wins (compress : List Nat → List Nat) (format : String)
    (files : List (String × String)) (k : String) :
    listLookup k (convert compress format files).1 =
      (lastMatch k files).map
        (fun pc => convert_file compress pc.2 (langOf pc.1) format) ∧
    ((convert compress format files).1.map Prod.fst).Nodup := by
  constructor
  · simp only [convert]
    rw [convertLoop_lookup compress format files [] 0 k]
    cases hm : lastMatch k files <;> simp [hm, listLookup]
  · simp only [convert]
    rw [convertLoop_keys compress format files [] 0]
    simpa using dedupFirstAux_nodup (recNames files) []

/-- Claim C9: the extension is `.` prepended to the piece of the base name
after its last `.`; a dotless base name becomes its own extension body, so
the base name `mmd` is recognised as mermaid while every other dotless
base name is skipped. -/
theorem extension_after_last_dot :
    (∀ base : String, '.' ∉ base.data → ftypeOf base = "." ++ base) ∧
    ftypeOf "a.b.mmd" = ".mmd" ∧
    ftypeOf "mmd" = ".mmd" ∧
    recognizedName "diagrams/mmd" = true ∧
    langOf "diagrams/mmd" = "mermaid" ∧
    ∀ base : String, '.' ∉ base.data → base ≠ "mmd" →
      listLookup (ftypeOf base) diagram_types = none := by
  have hgen : ∀ base : String, '.' ∉ base.data → ftypeOf base = "." ++ base := by
    intro base h
    obtain ⟨l⟩ := base
    show String.mk ('.' :: (splitChar '.' l).getLastD []) = _
    rw [splitChar_of_not_mem '.' l h]
    rfl
  refine ⟨hgen, by decide, by decide, by decide, by decide, ?_⟩
  intro base hdot hne
  obtain ⟨l⟩ := base
  rw [hgen ⟨l⟩ hdot]
  simp only [diagram_types, listLookup]
  have hne2 : ¬ ((".mmd" : String) == "." ++ (⟨l⟩ : String)) = true := by
    intro hbeq
    have he : (".mmd" : String) = "." ++ (⟨l⟩ : String) := beq_iff_eq.mp hbeq
    apply hne
    have hd : (['.', 'm', 'm', 'd'] : List Char) = '.' :: l := congrArg String.data he
    have hl : (['m', 'm', 'd'] : List Char) = l := by injection hd
    rw [← hl]
  rw [if_neg hne2]

theorem extension_after_last_dot_witness :
    ('.' ∉ ("x" : String).data) ∧ ("x" : String) ≠ "mmd" ∧
    ftypeOf "x" = "." ++ "x" ∧
    listLookup (ftypeOf "x") diagram_types = none :=
  ⟨by decide, by decide,
    extension_after_last_dot.1 "x" (by decide),
    extension_after_last_dot.2.2.2.2.2 "x" (by decide) (by decide)⟩

/-- Claim C10: the keys of the mapping built by `convert` are the base
names of the recognised input files in order of first occurrence (a
duplicate updates its value in place without moving the key), which is
the order in which `check_line` tests candidates. -/
theorem convert_keys_first_occurrence (compress : List Nat → List Nat) (format : String)
    (files : List (String × String)) :
    (convert compress format files).1.map Prod.fst = dedupFirst (recNames files) := by
  simp only [convert, dedupFirst]
  rw [convertLoop_keys compress format files [] 0]
  simp

theorem update_file_effects_witness :
    update_markdown_lines [("d.mmd", "U")] ["![d.mmd] here\n"] = some ["![d.mmd](U)\n"] ∧
    update_markdown_file ["![d.mmd] here\n"] [("d.mmd", "U")] false = ["![d.mmd](U)\n"] :=
  ⟨by decide,
    (update_file_effects ["![d.mmd] here\n"] [("d.mmd", "U")]).2 ["![d.mmd](U)\n"] (by decide)⟩

end Kroki2md
